import Mathlib

/-!
# Verification of the quiz-master core logic

Shallow embedding of the two non-trivial pieces of logic of the repository:

* the bulk-question text parser `parseQuestionsFromText` (create-quiz page),
  modelled at the character-list level, including the JavaScript regex
  semantics of `split(/\n\s*\n+/)`, `replace(/^\d+[.)]\s*/)`,
  `replace(/^[A-Da-d0-9][.)]\s*/)` and the correct-answer marker scan;
* the dual-store persistence adapter `quizService` (`src/utils/supabase.ts`),
  modelled as explicit state passing over a local-storage state and an
  environment that fixes the outcome of every remote (Supabase) call.

Theorems at the bottom settle the frozen claims about these components.
-/

namespace QuizMaster

/-! ## JavaScript string primitives

`isJsWs` is the character class of the JS regex `\s` (which coincides with
the set of characters removed by `String.prototype.trim`). -/

def isJsWs (c : Char) : Bool :=
  c = ' ' || c = '\t' || c = '\n' || c = '\x0b' || c = '\x0c' || c = '\r' ||
  c = '\u00A0' || c = '\u1680' || ('\u2000' ≤ c && c ≤ '\u200A') ||
  c = '\u2028' || c = '\u2029' || c = '\u202F' || c = '\u205F' ||
  c = '\u3000' || c = '\uFEFF'

/-- JS `String.prototype.trim` on a character list. -/
def trim (cs : List Char) : List Char :=
  ((cs.dropWhile isJsWs).reverse.dropWhile isJsWs).reverse

/-- Does `s` start with `pat`? (helper for JS `String.prototype.includes`) -/
def isSubAt : List Char → List Char → Bool
  | [], _ => true
  | _ :: _, [] => false
  | p :: ps, c :: cs => p == c && isSubAt ps cs

/-- JS `s.includes(pat)`: some suffix of `s` starts with `pat`. -/
def containsSub (pat : List Char) : List Char → Bool
  | [] => isSubAt pat []
  | c :: t => isSubAt pat (c :: t) || containsSub pat t

instance {ε α : Type} [DecidableEq ε] [DecidableEq α] : DecidableEq (Except ε α) :=
  fun x y =>
    match x, y with
    | .error a, .error b =>
      if h : a = b then .isTrue (by rw [h]) else .isFalse (fun hc => h (by cases hc; rfl))
    | .ok a, .ok b =>
      if h : a = b then .isTrue (by rw [h]) else .isFalse (fun hc => h (by cases hc; rfl))
    | .error _, .ok _ => .isFalse (fun hc => by cases hc)
    | .ok _, .error _ => .isFalse (fun hc => by cases hc)

/-! ## The bulk question parser (`parseQuestionsFromText`)

Source: `parseQuestionsFromText` in the create-quiz page component.
The parser splits the pasted text on `/\n\s*\n+/`, keeps the blocks whose
trim is non-empty, splits each block into trimmed non-empty lines, requires
at least 5 lines per block, strips enumerators, and detects the
correct-answer marker. -/

/--
Matching helper for the separator regex `/\n\s*\n+/`.  Called on the text
that follows a `\n` already consumed: by greedy matching with backtracking,
the regex match extends to just past the *last* newline inside the maximal
whitespace run that follows; it fails when that run contains no newline.
`seekNl cs = some r` returns the remainder `r` after that last newline.
-/
def seekNl : List Char → Option (List Char)
  | [] => none
  | c :: rest =>
    if c = '\n' then
      some (match seekNl rest with
            | some r => r
            | none => rest)
    else if isJsWs c then seekNl rest
    else none

theorem seekNl_length : ∀ cs r, seekNl cs = some r → r.length < cs.length := by
  intro cs
  induction cs with
  | nil => intro r h; simp [seekNl] at h
  | cons c rest ih =>
    intro r h
    simp only [seekNl] at h
    split at h
    · cases hi : seekNl rest with
      | some r' =>
        simp [hi] at h
        subst h
        have := ih r' hi
        simp [List.length_cons]; omega
      | none =>
        simp [hi] at h
        subst h; simp
    · split at h
      · have := ih r h
        simp [List.length_cons]; omega
      · exact absurd h (by simp)

/-- JS `bulkText.split(/\n\s*\n+/)` (accumulator-based scan). -/
def splitNlWs (acc : List Char) : List Char → List (List Char)
  | [] => [acc.reverse]
  | c :: rest =>
    if c = '\n' then
      match h : seekNl rest with
      | some rem => acc.reverse :: splitNlWs [] rem
      | none => splitNlWs (c :: acc) rest
    else splitNlWs (c :: acc) rest
termination_by cs => cs.length
decreasing_by
  all_goals simp only [List.length_cons]
  all_goals first
    | (have h2 := seekNl_length _ rem (by assumption); omega)
    | omega

/-- JS `block.split('\n')`. -/
def splitOnNl : List Char → List (List Char)
  | [] => [[]]
  | c :: rest =>
    if c = '\n' then [] :: splitOnNl rest
    else
      match splitOnNl rest with
      | t :: ts => (c :: t) :: ts
      | [] => [[c]]

/-- The blocks of the input: split on blank lines, keep those with non-empty
trim (`bulkText.split(/\n\s*\n+/).filter(block => block.trim().length > 0)`). -/
def blocksOf (s : List Char) : List (List Char) :=
  (splitNlWs [] s).filter (fun b => trim b ≠ [])

/-- The trimmed, non-empty lines of a block
(`block.split('\n').map(line => line.trim()).filter(line => line.length > 0)`). -/
def linesOf (b : List Char) : List (List Char) :=
  ((splitOnNl b).map trim).filter (fun l => l ≠ [])

def isDigitCh (c : Char) : Bool := '0' ≤ c && c ≤ '9'

/-- `lines[0].replace(/^\d+[.)]\s*/, '').trim()`: strip a leading run of
digits followed by `.` or `)` followed by whitespace, then trim. -/
def stripQEnum (l : List Char) : List Char :=
  let ds := l.takeWhile isDigitCh
  match l.dropWhile isDigitCh with
  | c :: t =>
    if ds ≠ [] && (c == '.' || c == ')') then trim (t.dropWhile isJsWs)
    else trim l
  | [] => trim l

def isOptLetter (c : Char) : Bool :=
  ('A' ≤ c && c ≤ 'D') || ('a' ≤ c && c ≤ 'd') || isDigitCh c

/-- `line.replace(/^[A-Da-d0-9][.)]\s*/, '').trim()`. -/
def stripOptEnum (l : List Char) : List Char :=
  match l with
  | a :: b :: t =>
    if isOptLetter a && (b == '.' || b == ')') then trim (t.dropWhile isJsWs)
    else trim l
  | _ => trim l

/-- The marker test of the correct-answer scan:
`options[i].includes('(correct)') || options[i].includes('*') || options[i].endsWith('✓')`. -/
def hasMarker (o : List Char) : Bool :=
  containsSub (("(correct)" : String).data) o || o.contains '*' ||
    o.getLast? == some '✓'

/-- `options[i].replace(/\(correct\)|\*|✓/g, '')`: global removal of all
marker occurrences, alternatives tried left-to-right at each position. -/
def removeMarkers : List Char → List Char
  | [] => []
  | '(' :: 'c' :: 'o' :: 'r' :: 'r' :: 'e' :: 'c' :: 't' :: ')' :: cs =>
      removeMarkers cs
  | '*' :: cs => removeMarkers cs
  | '✓' :: cs => removeMarkers cs
  | c :: cs => c :: removeMarkers cs

/-- The correct-answer detection loop: scan the options in index order,
record the index of the first marked option, strip the markers from that
option only, leave everything after it untouched; default index 0. -/
def scanCorrect (i : Nat) : List (List Char) → Nat × List (List Char)
  | [] => (0, [])
  | o :: rest =>
    if hasMarker o then (i, trim (removeMarkers o) :: rest)
    else
      let p := scanCorrect (i + 1) rest
      (p.1, o :: p.2)

/-- A parsed question (`Partial<QuizQuestion>`; the time-based `id` field is
not modelled — no claim concerns it). -/
structure ParsedQuestion where
  text : List Char
  options : List (List Char)
  correctAnswer : Nat
deriving Repr, DecidableEq

/-- Build the question of one block from its trimmed non-empty lines
(question text from `lines[0]`, options from `lines.slice(1, 5)`). -/
def mkQFromLines (ls : List (List Char)) : ParsedQuestion :=
  let opts := ((ls.drop 1).take 4).map stripOptEnum
  let p := scanCorrect 0 opts
  { text := stripQEnum (ls.headD []), options := p.2, correctAnswer := p.1 }

/-- The per-block error message
`Question block ${index + 1} does not have enough lines for a question and 4 options`. -/
def blockMsg (n : Nat) : List Char :=
  ("Question block " : String).data ++ (Nat.repr n).data ++
    (" does not have enough lines for a question and 4 options" : String).data

/-- The `questionBlocks.forEach` loop: all-or-nothing over the blocks, the
first block with fewer than 5 non-empty lines aborts the whole parse. -/
def parseBlocksE (i : Nat) : List (List Char) → Except (List Char) (List ParsedQuestion)
  | [] => .ok []
  | b :: rest =>
    if (linesOf b).length < 5 then .error (blockMsg (i + 1))
    else
      match parseBlocksE (i + 1) rest with
      | .error e => .error e
      | .ok qs => .ok (mkQFromLines (linesOf b) :: qs)

/-- `parseQuestionsFromText`, as a pure function from the pasted text to
either an error message or the parsed question list. -/
def parseQuestionsFromText (s : List Char) : Except (List Char) (List ParsedQuestion) :=
  if trim s = [] then .error ("Please enter some text to parse" : String).data
  else
    match parseBlocksE 0 (blocksOf s) with
    | .error e => .error e
    | .ok qs =>
      if qs = [] then
        .error ("No valid questions could be parsed from the text" : String).data
      else .ok qs

/-! ### Well-formed bulk input

A "well-formed bulk text with N blank-line-separated blocks" is an input in
the image of `renderBlocks`: blocks are lists of lines, lines are joined
with single newlines inside a block and blocks are separated by a blank
line.  A line is usable (`GoodLine`) when it contains no newline and does
not trim to nothing (otherwise it would act as a block separator or be
discarded). -/

def renderLines : List (List Char) → List Char
  | [] => []
  | [l] => l
  | l :: ls => l ++ '\n' :: renderLines ls

def renderBlocks : List (List (List Char)) → List Char
  | [] => []
  | [b] => renderLines b
  | b :: bs => renderLines b ++ '\n' :: '\n' :: renderBlocks bs

def GoodLine (l : List Char) : Prop := '\n' ∉ l ∧ trim l ≠ []

def GoodBlock (b : List (List Char)) : Prop := 5 ≤ b.length ∧ ∀ l ∈ b, GoodLine l

instance (l : List Char) : Decidable (GoodLine l) :=
  inferInstanceAs (Decidable ('\n' ∉ l ∧ trim l ≠ []))

instance (b : List (List Char)) : Decidable (GoodBlock b) :=
  inferInstanceAs (Decidable (5 ≤ b.length ∧ ∀ l ∈ b, GoodLine l))

/-! ## The dual-store persistence adapter (`quizService` in `src/utils/supabase.ts`)

The data model follows `src/types/quiz.ts`.  Remote (Supabase) calls are
modelled by an environment `Env` fixing each call's outcome; browser
`localStorage` is the explicit state `LocalState`.  A stored key is
`none` when `getItem` yields `null` (missing key, non-browser environment,
or a storage read error — all collapsed to `null` by `safeLocalStorage`),
`some (.error ())` when the stored text makes `JSON.parse` throw, and
`some (.ok v)` when it parses to `v` (JSON round-tripping of these plain
records is the identity).  `safeLocalStorage.setItem` swallows write
errors, which `Env.setItemOk` models: a failed write leaves the state
unchanged and is invisible to the caller. -/

structure QuizQuestion where
  id : String
  text : String
  options : List String
  correctAnswer : Nat
deriving Repr, DecidableEq

structure Quiz where
  id : String
  title : String
  description : String
  questions : List QuizQuestion
  createdAt : String
  updatedAt : String
  author : Option String
  category : Option String
  timeLimit : Option Nat
deriving Repr, DecidableEq

structure AnswerRec where
  questionId : String
  selectedAnswer : Nat
deriving Repr, DecidableEq

/-- The entry appended to the `quizHistory` localStorage list by the
`saveQuizResult` fallback. -/
structure LocalHistEntry where
  id : String
  quizId : String
  userName : String
  score : Nat
  totalQuestions : Nat
  timeTaken : Nat
  completedAt : String
  answers : List AnswerRec
deriving Repr, DecidableEq

/-- A row of the `quizzes` relation as returned by remote reads (columns in
snake case; `get_quiz_with_questions` additionally embeds the questions,
already in camelCase as the code destructures them). -/
structure RemoteQuizRow where
  id : String
  title : String
  description : String
  questions : Option (List QuizQuestion)
  created_at : String
  updated_at : String
  category : Option String
  time_limit : Option Nat
  author_id : Option String
deriving Repr, DecidableEq

/-- The `quizzes:quiz_id ( title, category )` join payload of a
`quiz_results` row. -/
structure HistJoin where
  title : String
  category : Option String
deriving Repr, DecidableEq

/-- A row of the `quiz_results` relation joined with its quiz. -/
structure RemoteHistRow where
  id : String
  quiz_id : String
  quizzes : Option HistJoin
  user_name : Option String
  score : Nat
  total_questions : Nat
  time_taken : Nat
  completed_at : String
deriving Repr, DecidableEq

/-- An entry of the sequence returned by `getQuizHistory`.  The remote
branch builds records without an `answers` field (`none` here); the local
branch spreads the stored entry, keeping its `answers` (`some _`). -/
structure HistOut where
  id : String
  quizId : String
  quizTitle : String
  userName : String
  score : Nat
  totalQuestions : Nat
  timeTaken : Nat
  completedAt : String
  category : Option String
  answers : Option (List AnswerRec)
deriving Repr, DecidableEq

/-- The browser `localStorage`, restricted to the two keys the adapter
uses. -/
structure LocalState where
  localQuizzes : Option (Except Unit (List Quiz))
  quizHistory : Option (Except Unit (List LocalHistEntry))
deriving Repr

/-- Outcomes of the remote (Supabase) calls and of the other ambient
effects (`uuidv4()`, `new Date()`, storage write success). -/
structure Env where
  /-- `supabase.auth.getUser()`: rejection, or the optional user id. -/
  authRes : Except Unit (Option String)
  /-- `from('quizzes').insert(...).select('id').single()`: the new row id,
  or an error (also covering the `!createdQuiz` null-data check). -/
  insertQuizRes : Except Unit String
  /-- `from('questions').insert(...)`: its error is only logged. -/
  insertQuestionsRes : Except Unit Unit
  /-- `from('quiz_results').insert(...).select('id').single()`. -/
  insertResultRes : Except Unit String
  /-- `from('quizzes').select('*').order(...)` in `getAllQuizzes`. -/
  listQuizzesRes : Except Unit (List RemoteQuizRow)
  /-- `from('quiz_results').select(...).order(...)` in `getQuizHistory`. -/
  histRes : Except Unit (List RemoteHistRow)
  /-- `rpc('get_quiz_with_questions', { quiz_id: id })`: error, null data,
  or the quiz row with embedded questions. -/
  rpcGetQuiz : String → Except Unit (Option RemoteQuizRow)
  /-- `uuidv4()`. -/
  freshId : String
  /-- `new Date().toISOString()`. -/
  nowIso : String
  /-- `new Date(s).getTime()`, used by the history sort comparator. -/
  dateVal : String → Int
  /-- whether `localStorage.setItem` succeeds (its exceptions are swallowed
  by `safeLocalStorage.setItem`). -/
  setItemOk : Bool

/-- JS `x || dflt` for an optional string (`null`/`undefined` and the empty
string are falsy). -/
def orDefaultStr (s : Option String) (d : String) : String :=
  match s with
  | some v => if v = "" then d else v
  | none => d

/-- JS `x || undefined` for an optional string (maps `''` to `undefined`). -/
def falsyOptStr (s : Option String) : Option String :=
  match s with
  | some v => if v = "" then none else some v
  | none => none

/-- JS `x || undefined` for an optional number (maps `0` to `undefined`). -/
def falsyOptNat (n : Option Nat) : Option Nat :=
  match n with
  | some v => if v = 0 then none else some v
  | none => none

/-- The quiz list the fallback paths read from localStorage: missing or
corrupt data silently degrades to `[]`. -/
def readableQuizzes (st : LocalState) : List Quiz :=
  match st.localQuizzes with
  | some (.ok l) => l
  | _ => []

/-- The history list read from localStorage by `saveQuizResult`'s fallback
(only the corrupt case throws there, handled at the call site). -/
def readableHistory (st : LocalState) : List LocalHistEntry :=
  match st.quizHistory with
  | some (.ok l) => l
  | _ => []

/-- `safeLocalStorage.setItem('localQuizzes', ...)`: write errors are
swallowed, so a failed write just keeps the old state. -/
def writeQuizzes (env : Env) (st : LocalState) (l : List Quiz) : LocalState :=
  if env.setItemOk then { st with localQuizzes := some (.ok l) } else st

/-- `safeLocalStorage.setItem('quizHistory', ...)`. -/
def writeHistory (env : Env) (st : LocalState) (l : List LocalHistEntry) : LocalState :=
  if env.setItemOk then { st with quizHistory := some (.ok l) } else st

/-- Formatting of a remote summary row in `getAllQuizzes`
(`questions: []` — questions are only loaded when viewing a quiz). -/
def fmtSummary (row : RemoteQuizRow) : Quiz :=
  { id := row.id, title := row.title, description := row.description,
    questions := [], createdAt := row.created_at, updatedAt := row.updated_at,
    author := none, category := row.category, timeLimit := row.time_limit }

/-- The remote contribution of `getAllQuizzes`: the fetched rows, or `[]`
when the remote read failed (logged only). -/
def remoteRows (env : Env) : List RemoteQuizRow :=
  match env.listQuizzesRes with
  | .ok l => l
  | .error _ => []

/-- `quizService.getAllQuizzes`: remote contribution concatenated with the
local contribution, with every failure degraded to an empty list. -/
def getAllQuizzes (env : Env) (st : LocalState) : List Quiz :=
  (remoteRows env).map fmtSummary ++ readableQuizzes st

/-- Formatting of the `get_quiz_with_questions` payload in `getQuizById`
(`data.questions || []`, fields mapped to the `Quiz` type). -/
def fmtRpcQuiz (row : RemoteQuizRow) : Quiz :=
  { id := row.id, title := row.title, description := row.description,
    questions := row.questions.getD [],
    createdAt := row.created_at, updatedAt := row.updated_at,
    author := row.author_id, category := row.category,
    timeLimit := row.time_limit }

/-- `quizService.getQuizById`: remote fetch with embedded questions; on a
remote error or null data, scan the local quiz list; if both miss, throw
`Error('Quiz not found')`. -/
def getQuizById (env : Env) (st : LocalState) (id : String) : Except String Quiz :=
  match env.rpcGetQuiz id with
  | .ok (some row) => .ok (fmtRpcQuiz row)
  | _ =>
    match (readableQuizzes st).find? (fun q => q.id == id) with
    | some q => .ok q
    | none => .error ("Quiz not found")

/-- The input of `createQuiz` (`Omit<Quiz, 'id' | 'createdAt' | 'updatedAt'>`). -/
structure QuizInput where
  title : String
  description : String
  questions : List QuizQuestion
  category : Option String
  timeLimit : Option Nat
deriving Repr, DecidableEq

/-- The remote path of `createQuiz`: `getUser`, then the quiz-row insert;
the questions insert only logs its error and cannot fail the call. -/
def createQuizRemote (env : Env) : Except Unit String :=
  match env.authRes with
  | .error e => .error e
  | .ok _ =>
    match env.insertQuizRes with
    | .error e => .error e
    | .ok qid => .ok qid

/-- The quiz the local fallback of `createQuiz` builds
(`category: quiz.category || undefined`, `timeLimit: quiz.timeLimit || undefined`,
timestamps from `new Date().toISOString()`). -/
def mkLocalQuiz (env : Env) (q : QuizInput) : Quiz :=
  { id := env.freshId, title := q.title, description := q.description,
    questions := q.questions, createdAt := env.nowIso, updatedAt := env.nowIso,
    author := none, category := falsyOptStr q.category,
    timeLimit := falsyOptNat q.timeLimit }

/-- `quizService.createQuiz`: remote insert, else mint an id and append the
full quiz to the local list (a corrupt local list is silently replaced, a
failed write silently dropped — the id is returned regardless). -/
def createQuiz (env : Env) (st : LocalState) (q : QuizInput) :
    Except String String × LocalState :=
  match createQuizRemote env with
  | .ok qid => (.ok qid, st)
  | .error _ =>
    let localQuiz := mkLocalQuiz env q
    let st' := writeQuizzes env st (readableQuizzes st ++ [localQuiz])
    (.ok env.freshId, st')

/-- The input of `saveQuizResult`. -/
structure ResultInput where
  quizId : String
  score : Nat
  totalQuestions : Nat
  timeTaken : Nat
  completedAt : String
  userName : Option String
  answers : Option (List AnswerRec)
deriving Repr, DecidableEq

/-- The remote path of `saveQuizResult`: `getUser`, then the result insert. -/
def saveResultRemote (env : Env) : Except Unit String :=
  match env.authRes with
  | .error e => .error e
  | .ok _ =>
    match env.insertResultRes with
    | .error e => .error e
    | .ok rid => .ok rid

/-- The entry the local fallback of `saveQuizResult` appends
(`userName: result.userName || 'Anonymous'`, `answers: result.answers || []`). -/
def mkLocalEntry (env : Env) (r : ResultInput) : LocalHistEntry :=
  { id := env.freshId, quizId := r.quizId,
    userName := orDefaultStr r.userName ("Anonymous"),
    score := r.score, totalQuestions := r.totalQuestions,
    timeTaken := r.timeTaken, completedAt := r.completedAt,
    answers := r.answers.getD [] }

/-- `quizService.saveQuizResult`: remote insert; on any failure append to
the local history list and return the minted id; `null` only when the
local fallback itself throws (`JSON.parse` of a corrupt stored list). -/
def saveQuizResult (env : Env) (st : LocalState) (r : ResultInput) :
    Option String × LocalState :=
  match saveResultRemote env with
  | .ok rid => (some rid, st)
  | .error _ =>
    match st.quizHistory with
    | some (.error _) => (none, st)
    | _ =>
      let entry := mkLocalEntry env r
      let st' := writeHistory env st (readableHistory st ++ [entry])
      (some env.freshId, st')

/-- Formatting of a remote history row in `getQuizHistory`
(`item.quizzes?.title || 'Unknown Quiz'`, `item.user_name || 'Anonymous'`,
`item.quizzes?.category`; no `answers` field on this branch). -/
def fmtRemoteHist (row : RemoteHistRow) : HistOut :=
  { id := row.id, quizId := row.quiz_id,
    quizTitle := orDefaultStr (row.quizzes.map (fun j => j.title)) "Unknown Quiz",
    userName := orDefaultStr row.user_name ("Anonymous"),
    score := row.score, totalQuestions := row.total_questions,
    timeTaken := row.time_taken, completedAt := row.completed_at,
    category := match row.quizzes with
                | some j => j.category
                | none => none,
    answers := none }

/-- The per-entry enhancement of the local history: best-effort quiz lookup
via `getQuizById`, with placeholder title `'Unknown Quiz'` and null
category when the lookup throws. -/
def enhanceEntry (env : Env) (st : LocalState) (item : LocalHistEntry) : HistOut :=
  match getQuizById env st item.quizId with
  | .ok quizData =>
    { id := item.id, quizId := item.quizId, quizTitle := quizData.title,
      userName := item.userName, score := item.score,
      totalQuestions := item.totalQuestions, timeTaken := item.timeTaken,
      completedAt := item.completedAt, category := quizData.category,
      answers := some item.answers }
  | .error _ =>
    { id := item.id, quizId := item.quizId, quizTitle := "Unknown Quiz",
      userName := item.userName, score := item.score,
      totalQuestions := item.totalQuestions, timeTaken := item.timeTaken,
      completedAt := item.completedAt, category := none,
      answers := some item.answers }

/-- The comparator of the final history sort:
`(a, b) => new Date(b.completedAt).getTime() - new Date(a.completedAt).getTime()`,
i.e. `a` may precede `b` iff `b`'s time is at most `a`'s.  JS `sort` is
required to be stable, so it computes the stable descending sort. -/
def histLe (env : Env) (a b : HistOut) : Bool :=
  env.dateVal b.completedAt ≤ env.dateVal a.completedAt

/-- The local branch of `getQuizHistory`: missing key or corrupt data give
`[]`; otherwise each entry is enhanced and the list sorted by completion
time, descending. -/
def localHistoryPath (env : Env) (st : LocalState) : List HistOut :=
  match st.quizHistory with
  | some (.ok l) => (l.map (enhanceEntry env st)).mergeSort (histLe env)
  | _ => []

/-- `quizService.getQuizHistory`: a non-empty remote read is returned
directly; otherwise (remote failure or empty data) the local branch runs. -/
def getQuizHistory (env : Env) (st : LocalState) : List HistOut :=
  match env.histRes with
  | .ok l => if l.isEmpty then localHistoryPath env st else l.map fmtRemoteHist
  | .error _ => localHistoryPath env st

/-! ## Supporting lemmas: trimming and whitespace -/

theorem trim_eq_nil_iff (l : List Char) : trim l = [] ↔ ∀ c ∈ l, isJsWs c := by
  unfold trim
  constructor
  · intro h c hc
    rw [List.reverse_eq_nil_iff, List.dropWhile_eq_nil_iff] at h
    by_cases hws : isJsWs c
    · exact hws
    · have hsplit : c ∈ l.takeWhile isJsWs ++ l.dropWhile isJsWs := by
        rw [List.takeWhile_append_dropWhile]; exact hc
      rcases List.mem_append.1 hsplit with h1 | h2
      · exact absurd (List.mem_takeWhile_imp h1) hws
      · exact absurd (h c (List.mem_reverse.2 h2)) hws
  · intro h
    have h1 : l.dropWhile isJsWs = [] := List.dropWhile_eq_nil_iff.2 (fun x hx => h x hx)
    simp [h1]

theorem trim_ne_nil {l : List Char} {c : Char} (hc : c ∈ l) (hw : ¬ isJsWs c) :
    trim l ≠ [] := fun h => hw ((trim_eq_nil_iff l).1 h c hc)

theorem goodLine_exists_nonWs {l : List Char} (h : GoodLine l) :
    ∃ c ∈ l, ¬ isJsWs c := by
  by_contra hc
  push_neg at hc
  exact h.2 ((trim_eq_nil_iff l).2 hc)

theorem newline_isJsWs : isJsWs '\n' = true := by decide

/-! ## Supporting lemmas: the block splitter -/

theorem splitNlWs_nil (acc : List Char) : splitNlWs acc [] = [acc.reverse] := by
  rw [splitNlWs]

theorem splitNlWs_nl_some (acc rest rem : List Char) (h : seekNl rest = some rem) :
    splitNlWs acc ('\n' :: rest) = acc.reverse :: splitNlWs [] rem := by
  rw [splitNlWs, if_pos rfl]
  split
  · rename_i r hr
    rw [h] at hr
    cases hr
    rfl
  · rename_i hr
    rw [h] at hr
    cases hr

theorem splitNlWs_nl_none (acc rest : List Char) (h : seekNl rest = none) :
    splitNlWs acc ('\n' :: rest) = splitNlWs ('\n' :: acc) rest := by
  rw [splitNlWs, if_pos rfl]
  split
  · rename_i r hr
    rw [h] at hr
    cases hr
  · rfl

theorem splitNlWs_not_nl (acc : List Char) (c : Char) (rest : List Char) (h : ¬ c = '\n') :
    splitNlWs acc (c :: rest) = splitNlWs (c :: acc) rest := by
  rw [splitNlWs, if_neg h]

theorem seekNl_append_none (l : List Char) (ds : List Char)
    (hnl : '\n' ∉ l) (hnw : ∃ c ∈ l, ¬ isJsWs c) :
    seekNl (l ++ ds) = none := by
  induction l with
  | nil => rcases hnw with ⟨c, hc, _⟩; cases hc
  | cons a t ih =>
    have ha : ¬ a = '\n' := fun h => hnl (h ▸ List.mem_cons_self a t)
    rw [List.cons_append, seekNl]
    by_cases haw : isJsWs a
    · rw [if_neg ha, if_pos haw]
      refine ih (fun h => hnl (List.mem_cons_of_mem _ h)) ?_
      rcases hnw with ⟨c, hc, hcw⟩
      rcases List.mem_cons.1 hc with rfl | hct
      · exact absurd haw hcw
      · exact ⟨c, hct, hcw⟩
    · rw [if_neg ha, if_neg haw]

theorem seekNl_sub : ∀ cs r, seekNl cs = some r → ∀ c ∈ r, c ∈ cs := by
  intro cs
  induction cs with
  | nil => intro r h; simp [seekNl] at h
  | cons a t ih =>
    intro r h c hc
    rw [seekNl] at h
    split_ifs at h with h1 h2
    · cases hn : seekNl t with
      | some r' =>
        rw [hn] at h
        simp only [Option.some.injEq] at h
        subst h
        exact List.mem_cons_of_mem _ (ih r' hn c hc)
      | none =>
        rw [hn] at h
        simp only [Option.some.injEq] at h
        subst h
        exact List.mem_cons_of_mem _ hc
    · exact List.mem_cons_of_mem _ (ih r h c hc)

theorem mem_splitNlWs : ∀ acc cs b, b ∈ splitNlWs acc cs → ∀ c ∈ b, c ∈ acc ∨ c ∈ cs := by
  intro acc cs
  induction acc, cs using splitNlWs.induct with
  | case1 acc =>
    intro b hb c hc
    rw [splitNlWs_nil] at hb
    rw [List.mem_singleton.1 hb] at hc
    exact Or.inl (List.mem_reverse.1 hc)
  | case2 acc rest rem heq ih =>
    intro b hb c hc
    rw [splitNlWs_nl_some acc rest rem heq] at hb
    rcases List.mem_cons.1 hb with rfl | hb2
    · exact Or.inl (List.mem_reverse.1 hc)
    · rcases ih b hb2 c hc with h | h
      · cases h
      · exact Or.inr (List.mem_cons_of_mem _ (seekNl_sub rest rem heq c h))
  | case3 acc rest heq ih =>
    intro b hb c hc
    rw [splitNlWs_nl_none acc rest heq] at hb
    rcases ih b hb c hc with h | h
    · rcases List.mem_cons.1 h with rfl | h2
      · exact Or.inr (List.mem_cons_self _ _)
      · exact Or.inl h2
    · exact Or.inr (List.mem_cons_of_mem _ h)
  | case4 acc x rest hne ih =>
    intro b hb c hc
    rw [splitNlWs_not_nl acc x rest hne] at hb
    rcases ih b hb c hc with h | h
    · rcases List.mem_cons.1 h with rfl | h2
      · exact Or.inr (List.mem_cons_self _ _)
      · exact Or.inl h2
    · exact Or.inr (List.mem_cons_of_mem _ h)

theorem splitNlWs_append (l : List Char) (hnl : '\n' ∉ l) :
    ∀ acc t, splitNlWs acc (l ++ t) = splitNlWs (l.reverse ++ acc) t := by
  induction l with
  | nil => intro acc t; simp
  | cons a u ih =>
    intro acc t
    have ha : ¬ a = '\n' := fun h => hnl (h ▸ List.mem_cons_self a u)
    rw [List.cons_append, splitNlWs_not_nl _ a _ ha,
      ih (fun h => hnl (List.mem_cons_of_mem _ h)) (a :: acc) t]
    simp

theorem seekNl_renderLines (ls : List (List Char)) (h0 : ls ≠ [])
    (hg : ∀ l ∈ ls, GoodLine l) (t : List Char) :
    seekNl (renderLines ls ++ t) = none := by
  match ls with
  | [] => exact absurd rfl h0
  | [l] =>
    have hl := hg l (List.mem_singleton.2 rfl)
    exact seekNl_append_none l t hl.1 (goodLine_exists_nonWs hl)
  | l :: l2 :: ls' =>
    have hl := hg l (List.mem_cons_self _ _)
    rw [show renderLines (l :: l2 :: ls') = l ++ '\n' :: renderLines (l2 :: ls') from rfl,
      List.append_assoc]
    exact seekNl_append_none l _ hl.1 (goodLine_exists_nonWs hl)

theorem splitNlWs_renderLines : ∀ (ls : List (List Char)), (∀ l ∈ ls, GoodLine l) →
    ∀ acc t, splitNlWs acc (renderLines ls ++ t) =
      splitNlWs ((renderLines ls).reverse ++ acc) t := by
  intro ls
  induction ls with
  | nil => intro _ acc t; simp [renderLines]
  | cons l ls' ih =>
    intro hg acc t
    cases ls' with
    | nil => exact splitNlWs_append l (hg l (List.mem_singleton.2 rfl)).1 acc t
    | cons l2 ls'' =>
      have hl := hg l (List.mem_cons_self _ _)
      have hg' : ∀ x ∈ l2 :: ls'', GoodLine x := fun x hx => hg x (List.mem_cons_of_mem _ hx)
      rw [show renderLines (l :: l2 :: ls'') = l ++ '\n' :: renderLines (l2 :: ls'') from rfl,
        List.append_assoc, splitNlWs_append l hl.1 acc _, List.cons_append,
        splitNlWs_nl_none _ _ (seekNl_renderLines (l2 :: ls'') (by simp) hg' t),
        ih hg' ('\n' :: (l.reverse ++ acc)) t]
      simp

theorem seekNl_renderBlocks (bs : List (List (List Char))) (h0 : bs ≠ [])
    (hg : ∀ b ∈ bs, b ≠ [] ∧ ∀ l ∈ b, GoodLine l) :
    seekNl (renderBlocks bs) = none := by
  match bs with
  | [] => exact absurd rfl h0
  | [b] =>
    have hb := hg b (List.mem_singleton.2 rfl)
    have := seekNl_renderLines b hb.1 hb.2 []
    simpa [renderBlocks] using this
  | b :: b2 :: bs' =>
    have hb := hg b (List.mem_cons_self _ _)
    rw [show renderBlocks (b :: b2 :: bs') =
      renderLines b ++ '\n' :: '\n' :: renderBlocks (b2 :: bs') from rfl]
    exact seekNl_renderLines b hb.1 hb.2 _

theorem splitNlWs_renderBlocks : ∀ (bs : List (List (List Char))), bs ≠ [] →
    (∀ b ∈ bs, b ≠ [] ∧ ∀ l ∈ b, GoodLine l) →
    splitNlWs [] (renderBlocks bs) = bs.map renderLines := by
  intro bs
  induction bs with
  | nil => intro h0; exact absurd rfl h0
  | cons b bs' ih =>
    intro _ hg
    have hb := hg b (List.mem_cons_self _ _)
    cases bs' with
    | nil =>
      have h1 := splitNlWs_renderLines b hb.2 [] []
      simp only [List.append_nil] at h1
      rw [show renderBlocks [b] = renderLines b from rfl, h1, splitNlWs_nil]
      simp
    | cons b2 bs'' =>
      have hg' : ∀ x ∈ b2 :: bs'', x ≠ [] ∧ ∀ l ∈ x, GoodLine l :=
        fun x hx => hg x (List.mem_cons_of_mem _ hx)
      have hs : seekNl ('\n' :: renderBlocks (b2 :: bs'')) =
          some (renderBlocks (b2 :: bs'')) := by
        rw [seekNl, if_pos rfl, seekNl_renderBlocks (b2 :: bs'') (by simp) hg']
      rw [show renderBlocks (b :: b2 :: bs'') =
        renderLines b ++ '\n' :: '\n' :: renderBlocks (b2 :: bs'') from rfl,
        splitNlWs_renderLines b hb.2 [] _,
        splitNlWs_nl_some _ _ _ hs, ih (by simp) hg']
      simp

/-! ## Supporting lemmas: lines of a block -/

theorem splitOnNl_no_nl (l : List Char) (h : '\n' ∉ l) : splitOnNl l = [l] := by
  induction l with
  | nil => rfl
  | cons a t ih =>
    have ha : ¬ a = '\n' := fun hh => h (hh ▸ List.mem_cons_self a t)
    rw [splitOnNl, if_neg ha, ih (fun hh => h (List.mem_cons_of_mem _ hh))]

theorem splitOnNl_append (l rest : List Char) (h : '\n' ∉ l) :
    splitOnNl (l ++ '\n' :: rest) = l :: splitOnNl rest := by
  induction l with
  | nil => simp [splitOnNl]
  | cons a t ih =>
    have ha : ¬ a = '\n' := fun hh => h (hh ▸ List.mem_cons_self a t)
    rw [List.cons_append, splitOnNl, if_neg ha, ih (fun hh => h (List.mem_cons_of_mem _ hh))]

theorem splitOnNl_renderLines : ∀ (ls : List (List Char)), ls ≠ [] →
    (∀ l ∈ ls, '\n' ∉ l) → splitOnNl (renderLines ls) = ls := by
  intro ls
  induction ls with
  | nil => intro h0; exact absurd rfl h0
  | cons l ls' ih =>
    intro _ hg
    cases ls' with
    | nil => exact splitOnNl_no_nl l (hg l (List.mem_singleton.2 rfl))
    | cons l2 ls'' =>
      rw [show renderLines (l :: l2 :: ls'') = l ++ '\n' :: renderLines (l2 :: ls'') from rfl,
        splitOnNl_append l _ (hg l (List.mem_cons_self _ _)),
        ih (by simp) (fun x hx => hg x (List.mem_cons_of_mem _ hx))]

theorem linesOf_renderLines (ls : List (List Char)) (h0 : ls ≠ [])
    (hg : ∀ l ∈ ls, GoodLine l) :
    linesOf (renderLines ls) = ls.map trim := by
  unfold linesOf
  rw [splitOnNl_renderLines ls h0 (fun l hl => (hg l hl).1), List.filter_eq_self.2]
  intro a ha
  rcases List.mem_map.1 ha with ⟨l, hl, rfl⟩
  simpa using (hg l hl).2

theorem mem_renderLines (c : Char) (l : List Char) :
    ∀ ls, l ∈ ls → c ∈ l → c ∈ renderLines ls := by
  intro ls
  induction ls with
  | nil => intro h; cases h
  | cons a ls' ih =>
    intro hl hc
    cases ls' with
    | nil =>
      rw [List.mem_singleton.1 hl] at hc
      exact hc
    | cons a2 t =>
      rw [show renderLines (a :: a2 :: t) = a ++ '\n' :: renderLines (a2 :: t) from rfl]
      rcases List.mem_cons.1 hl with rfl | h2
      · exact List.mem_append.2 (Or.inl hc)
      · exact List.mem_append.2 (Or.inr (List.mem_cons_of_mem _ (ih h2 hc)))

theorem mem_renderBlocks (c : Char) (b : List (List Char)) :
    ∀ bs, b ∈ bs → c ∈ renderLines b → c ∈ renderBlocks bs := by
  intro bs
  induction bs with
  | nil => intro h; cases h
  | cons a bs' ih =>
    intro hb hc
    cases bs' with
    | nil =>
      rw [List.mem_singleton.1 hb] at hc
      exact hc
    | cons a2 t =>
      rw [show renderBlocks (a :: a2 :: t) =
        renderLines a ++ '\n' :: '\n' :: renderBlocks (a2 :: t) from rfl]
      rcases List.mem_cons.1 hb with rfl | h2
      · exact List.mem_append.2 (Or.inl hc)
      · exact List.mem_append.2
          (Or.inr (List.mem_cons_of_mem _ (List.mem_cons_of_mem _ (ih h2 hc))))

/-! ## Supporting lemmas: block parsing -/

theorem parseBlocksE_ok : ∀ (blocks : List (List Char)) (k : Nat),
    (∀ b ∈ blocks, ¬ (linesOf b).length < 5) →
    parseBlocksE k blocks = .ok (blocks.map (fun b => mkQFromLines (linesOf b))) := by
  intro blocks
  induction blocks with
  | nil => intro k _; rfl
  | cons b rest ih =>
    intro k h
    rw [parseBlocksE, if_neg (h b (List.mem_cons_self _ _)),
      ih (k + 1) (fun b' hb' => h b' (List.mem_cons_of_mem _ hb'))]
    rfl

theorem parseBlocksE_error : ∀ (pre : List (List Char)) (b : List Char)
    (post : List (List Char)) (k : Nat),
    (∀ b' ∈ pre, ¬ (linesOf b').length < 5) → (linesOf b).length < 5 →
    parseBlocksE k (pre ++ b :: post) = .error (blockMsg (k + pre.length + 1)) := by
  intro pre
  induction pre with
  | nil =>
    intro b post k _ hb
    rw [List.nil_append, parseBlocksE, if_pos hb]
    simp
  | cons p pre' ih =>
    intro b post k h hb
    rw [List.cons_append, parseBlocksE, if_neg (h p (List.mem_cons_self _ _)),
      ih b post (k + 1) (fun b' hb' => h b' (List.mem_cons_of_mem _ hb')) hb]
    have : k + 1 + pre'.length = k + (p :: pre').length := by
      simp [List.length_cons]; omega
    rw [this]

theorem scanCorrect_none : ∀ (opts : List (List Char)) (i : Nat),
    (∀ o ∈ opts, hasMarker o = false) → scanCorrect i opts = (0, opts) := by
  intro opts
  induction opts with
  | nil => intro i _; rfl
  | cons o rest ih =>
    intro i h
    rw [scanCorrect, if_neg (by simp [h o (List.mem_cons_self _ _)])]
    simp [ih (i + 1) (fun o' ho' => h o' (List.mem_cons_of_mem _ ho'))]

theorem scanCorrect_found : ∀ (pre : List (List Char)) (o : List Char)
    (post : List (List Char)) (i : Nat),
    (∀ x ∈ pre, hasMarker x = false) → hasMarker o = true →
    scanCorrect i (pre ++ o :: post) =
      (i + pre.length, pre ++ trim (removeMarkers o) :: post) := by
  intro pre
  induction pre with
  | nil =>
    intro o post i _ ho
    rw [List.nil_append, scanCorrect, if_pos ho]
    rfl
  | cons x pre' ih =>
    intro o post i h ho
    rw [List.cons_append, scanCorrect, if_neg (by simp [h x (List.mem_cons_self _ _)])]
    rw [ih o post (i + 1) (fun x' hx' => h x' (List.mem_cons_of_mem _ hx')) ho]
    simp [List.length_cons]
    omega

theorem mkQFromLines_take (ls : List (List Char)) :
    mkQFromLines (ls.take 5) = mkQFromLines ls := by
  match ls with
  | [] => rfl
  | [a] => rfl
  | [a, b] => rfl
  | [a, b, c] => rfl
  | [a, b, c, d] => rfl
  | [a, b, c, d, e] => rfl
  | a :: b :: c :: d :: e :: f :: rest => rfl

/-! ## Claim theorems: the bulk question parser -/

/-- The input of the counterexample to C1: a single well-formed block whose
first option carries a `*` marker. -/
def c1badInput : List Char := ("Q\nA. x*\nB. y\nC. z\nD. w" : String).data

/--
**C1, counterexample.**  The claim asserts that for well-formed input every
question's options are *exactly* the next 4 non-empty lines with the leading
enumerator stripped.  On this single-block input the first option line is
`A. x*`; enumerator stripping alone yields `x*`, but the parser additionally
removes the correct-answer marker `*` from that option, so the produced
option is `x` — the claim's description of the options is false here.
-/
theorem c1_counterexample :
    parseQuestionsFromText c1badInput =
      .ok [{ text := ("Q" : String).data,
             options := [("x" : String).data, ("y" : String).data,
                         ("z" : String).data, ("w" : String).data],
             correctAnswer := 0 }] ∧
    [("x" : String).data, ("y" : String).data, ("z" : String).data,
     ("w" : String).data] ≠
      [stripOptEnum ("A. x*" : String).data, stripOptEnum ("B. y" : String).data,
       stripOptEnum ("C. z" : String).data, stripOptEnum ("D. w" : String).data] := by
  have hb : blocksOf c1badInput = [c1badInput] := by
    simp only [blocksOf, c1badInput]
    simp [splitNlWs, seekNl, isJsWs]
    decide
  constructor
  · unfold parseQuestionsFromText
    rw [hb]
    decide
  · decide

/--
**C1, amended.**  For every well-formed bulk text made of `N`
blank-line-separated blocks of at least 5 usable lines each
(`renderBlocks bs` with every block `GoodBlock`), the parser succeeds and
returns exactly `N` questions in block order; the `i`-th question is built
from the `i`-th block's trimmed lines by `mkQFromLines`: its text is the
block's first line with a leading `^\d+[.)]\s*` enumerator stripped, and its
options are the next 4 lines with a leading `^[A-Da-d0-9][.)]\s*` enumerator
stripped, except that the first option carrying a correct-answer marker
additionally has all marker occurrences removed and is re-trimmed.
-/
theorem c1_amended (bs : List (List (List Char))) (h0 : bs ≠ [])
    (hg : ∀ b ∈ bs, GoodBlock b) :
    parseQuestionsFromText (renderBlocks bs) =
      .ok (bs.map (fun b => mkQFromLines (b.map trim))) ∧
    (bs.map (fun b => mkQFromLines (b.map trim))).length = bs.length := by
  have hblocks : ∀ b ∈ bs, b ≠ [] ∧ ∀ l ∈ b, GoodLine l := by
    intro b hb
    refine ⟨?_, (hg b hb).2⟩
    have h5 := (hg b hb).1
    intro hnil
    rw [hnil] at h5
    simp at h5
  -- the whole input does not trim to nothing
  obtain ⟨b0, bs', rfl⟩ : ∃ b0 bs', bs = b0 :: bs' := by
    cases bs with
    | nil => exact absurd rfl h0
    | cons x xs => exact ⟨x, xs, rfl⟩
  have hb0 := hblocks b0 (List.mem_cons_self _ _)
  obtain ⟨l0, ls0, hl0⟩ : ∃ l0 ls0, b0 = l0 :: ls0 := by
    cases b0 with
    | nil => exact absurd rfl hb0.1
    | cons x xs => exact ⟨x, xs, rfl⟩
  have hgood0 : GoodLine l0 := hb0.2 l0 (by rw [hl0]; exact List.mem_cons_self _ _)
  obtain ⟨cw, hcw, hcwns⟩ := goodLine_exists_nonWs hgood0
  have hcs : cw ∈ renderBlocks (b0 :: bs') :=
    mem_renderBlocks cw b0 _ (List.mem_cons_self _ _)
      (mem_renderLines cw l0 b0 (by rw [hl0]; exact List.mem_cons_self _ _) hcw)
  have htrim : trim (renderBlocks (b0 :: bs')) ≠ [] := trim_ne_nil hcs hcwns
  -- the blocks of the rendered input are exactly the rendered blocks
  have hfilter : ∀ x ∈ (b0 :: bs').map renderLines, trim x ≠ [] := by
    intro x hx
    rcases List.mem_map.1 hx with ⟨b, hb, rfl⟩
    have hbg := hblocks b hb
    obtain ⟨l, ls, hl⟩ : ∃ l ls, b = l :: ls := by
      cases b with
      | nil => exact absurd rfl hbg.1
      | cons y ys => exact ⟨y, ys, rfl⟩
    have hgl : GoodLine l := hbg.2 l (by rw [hl]; exact List.mem_cons_self _ _)
    obtain ⟨c, hc, hcns⟩ := goodLine_exists_nonWs hgl
    exact trim_ne_nil (mem_renderLines c l b (by rw [hl]; exact List.mem_cons_self _ _) hc) hcns
  have hblocksOf : blocksOf (renderBlocks (b0 :: bs')) = (b0 :: bs').map renderLines := by
    unfold blocksOf
    rw [splitNlWs_renderBlocks _ h0 hblocks, List.filter_eq_self.2]
    intro a ha
    simpa using hfilter a ha
  have hlines : ∀ b ∈ (b0 :: bs'), linesOf (renderLines b) = b.map trim := by
    intro b hb
    exact linesOf_renderLines b (hblocks b hb).1 (hblocks b hb).2
  have hlen : ∀ x ∈ (b0 :: bs').map renderLines, ¬ (linesOf x).length < 5 := by
    intro x hx
    rcases List.mem_map.1 hx with ⟨b, hb, rfl⟩
    rw [hlines b hb, List.length_map]
    have := (hg b hb).1
    omega
  have hparse := parseBlocksE_ok ((b0 :: bs').map renderLines) 0 hlen
  constructor
  · unfold parseQuestionsFromText
    rw [if_neg (by simpa using htrim), hblocksOf, hparse, List.map_map]
    have hmapeq : ((b0 :: bs').map ((fun b => mkQFromLines (linesOf b)) ∘ renderLines)) =
        (b0 :: bs').map (fun b => mkQFromLines (b.map trim)) := by
      apply List.map_congr_left
      intro b hb
      simp [Function.comp, hlines b hb]
    rw [hmapeq]
    simp
  · simp

/--
**C2.**  For any block lines, scanning the 4 extracted options
(`lines.slice(1,5)` with enumerators stripped) in index order: if the options
decompose as `pre ++ o :: post` where no option of `pre` carries a marker
and `o` does, then `correctAnswer` is `o`'s index (`pre.length`) and the
output options are `pre`, then `o` with all markers removed and re-trimmed,
then `post` unchanged (the scan stops at the first match); if no option
carries a marker, `correctAnswer` is 0 and all options are unchanged.
-/
theorem c2_marker_scan (ls : List (List Char)) :
    (∀ pre o post, ((ls.drop 1).take 4).map stripOptEnum = pre ++ o :: post →
      (∀ x ∈ pre, hasMarker x = false) → hasMarker o = true →
      (mkQFromLines ls).correctAnswer = pre.length ∧
      (mkQFromLines ls).options = pre ++ trim (removeMarkers o) :: post) ∧
    ((∀ o ∈ ((ls.drop 1).take 4).map stripOptEnum, hasMarker o = false) →
      (mkQFromLines ls).correctAnswer = 0 ∧
      (mkQFromLines ls).options = ((ls.drop 1).take 4).map stripOptEnum) := by
  have hca : (mkQFromLines ls).correctAnswer =
      (scanCorrect 0 (((ls.drop 1).take 4).map stripOptEnum)).1 := rfl
  have hop : (mkQFromLines ls).options =
      (scanCorrect 0 (((ls.drop 1).take 4).map stripOptEnum)).2 := rfl
  constructor
  · intro pre o post hdec hpre ho
    rw [hca, hop, hdec, scanCorrect_found pre o post 0 hpre ho]
    exact ⟨by simp, rfl⟩
  · intro h
    rw [hca, hop, scanCorrect_none _ 0 h]
    exact ⟨rfl, rfl⟩

/-- Witness for C2: in the block `Q / A. x / B. y / C. z* / D. w` the third
option is the first (and only) marked one, so `correctAnswer = 2` and the
marker is removed from that option only. -/
theorem c2_witness :
    (mkQFromLines [("Q" : String).data, ("A. x" : String).data,
      ("B. y" : String).data, ("C. z*" : String).data,
      ("D. w" : String).data]).correctAnswer = 2 ∧
    (mkQFromLines [("Q" : String).data, ("A. x" : String).data,
      ("B. y" : String).data, ("C. z*" : String).data,
      ("D. w" : String).data]).options =
      [("x" : String).data, ("y" : String).data] ++
        trim (removeMarkers ("z*" : String).data) :: [("w" : String).data] :=
  (c2_marker_scan _).1
    [("x" : String).data, ("y" : String).data] (("z*" : String).data)
    [("w" : String).data] (by decide) (by decide) (by decide)

/-- Witness for the amended C1: a two-block input parses to two questions
in block order. -/
theorem c1_witness :
    parseQuestionsFromText (renderBlocks
      [[("1. Q" : String).data, ("A. a" : String).data, ("B. b" : String).data,
        ("C. c" : String).data, ("D. d" : String).data],
       [("Q2" : String).data, ("1. e" : String).data, ("2. f" : String).data,
        ("3. g" : String).data, ("4. h" : String).data]]) =
      .ok ([[("1. Q" : String).data, ("A. a" : String).data, ("B. b" : String).data,
             ("C. c" : String).data, ("D. d" : String).data],
            [("Q2" : String).data, ("1. e" : String).data, ("2. f" : String).data,
             ("3. g" : String).data, ("4. h" : String).data]].map
        (fun b => mkQFromLines (b.map trim))) ∧
    ([[("1. Q" : String).data, ("A. a" : String).data, ("B. b" : String).data,
       ("C. c" : String).data, ("D. d" : String).data],
      [("Q2" : String).data, ("1. e" : String).data, ("2. f" : String).data,
       ("3. g" : String).data, ("4. h" : String).data]].map
      (fun b => mkQFromLines (b.map trim))).length = 2 :=
  c1_amended _ (by decide) (by decide)

/--
**C3.**  If some block of the input has fewer than 5 non-empty lines (and
`pre`/`b`/`post` exhibit the first such block `b`), the whole parse fails
with the error message naming that block's 1-based index `pre.length + 1`,
and no question list is ever produced (all-or-nothing).
-/
theorem c3_short_block_fails (s : List Char) (pre : List (List Char)) (b : List Char)
    (post : List (List Char))
    (hdec : blocksOf s = pre ++ b :: post)
    (hpre : ∀ b' ∈ pre, ¬ (linesOf b').length < 5)
    (hb : (linesOf b).length < 5) :
    parseQuestionsFromText s = .error (blockMsg (pre.length + 1)) ∧
    ∀ qs, parseQuestionsFromText s ≠ .ok qs := by
  have hbmem : b ∈ blocksOf s := by
    rw [hdec]; exact List.mem_append.2 (Or.inr (List.mem_cons_self _ _))
  have htrim : trim s ≠ [] := by
    have hbfil : trim b ≠ [] := by simpa using List.of_mem_filter hbmem
    obtain ⟨c, hc, hcns⟩ : ∃ c ∈ b, ¬ isJsWs c := by
      by_contra hcon
      push_neg at hcon
      exact hbfil ((trim_eq_nil_iff b).2 hcon)
    have hbsplit : b ∈ splitNlWs [] s := List.mem_of_mem_filter hbmem
    have hcs : c ∈ s := by
      rcases mem_splitNlWs [] s b hbsplit c hc with h | h
      · cases h
      · exact h
    exact trim_ne_nil hcs hcns
  have herr : parseBlocksE 0 (blocksOf s) = .error (blockMsg (pre.length + 1)) := by
    rw [hdec]
    have := parseBlocksE_error pre b post 0 hpre hb
    simpa using this
  constructor
  · unfold parseQuestionsFromText
    rw [if_neg htrim, herr]
  · intro qs
    unfold parseQuestionsFromText
    rw [if_neg htrim, herr]
    simp

/-- Witness for C3: the second block has only 3 non-empty lines, so the
whole parse fails naming block 2. -/
theorem c3_witness :
    parseQuestionsFromText (("Q\nA. a\nB. b\nC. c\nD. d\n\nbad\nonly\nthree" : String).data) =
      .error (blockMsg 2) ∧
    ∀ qs, parseQuestionsFromText
      (("Q\nA. a\nB. b\nC. c\nD. d\n\nbad\nonly\nthree" : String).data) ≠ .ok qs := by
  refine c3_short_block_fails _ [("Q\nA. a\nB. b\nC. c\nD. d" : String).data]
    (("bad\nonly\nthree" : String).data) [] ?_ (by decide) (by decide)
  simp only [blocksOf]
  simp [splitNlWs, seekNl, isJsWs]
  decide

/--
**C10.**  A block with more than 5 non-empty lines parses successfully and
every line after the 5th is silently discarded: the result is the question
built from the first 5 lines, and it coincides with the parse of any block
`trunc` whose non-empty lines are exactly those first 5 lines.
-/
theorem c10_extra_lines_dropped (b trunc : List Char)
    (h5 : 5 < (linesOf b).length)
    (htr : linesOf trunc = (linesOf b).take 5) :
    parseBlocksE 0 [b] = .ok [mkQFromLines ((linesOf b).take 5)] ∧
    parseBlocksE 0 [trunc] = parseBlocksE 0 [b] := by
  have hlb : ¬ (linesOf b).length < 5 := by omega
  have hlt : ¬ (linesOf trunc).length < 5 := by
    rw [htr, List.length_take]
    omega
  have h1 : parseBlocksE 0 [b] = .ok [mkQFromLines (linesOf b)] := by
    rw [parseBlocksE, if_neg hlb]
    rfl
  have h2 : parseBlocksE 0 [trunc] = .ok [mkQFromLines (linesOf trunc)] := by
    rw [parseBlocksE, if_neg hlt]
    rfl
  constructor
  · rw [h1, mkQFromLines_take]
  · rw [h1, h2, htr, mkQFromLines_take]

/-- Witness for C10: a 7-line block parses like its 5-line truncation; the
6th and 7th lines are dropped. -/
theorem c10_witness :
    parseBlocksE 0 [("Q\nA. a\nB. b\nC. c\nD. d\nextra\nmore" : String).data] =
      .ok [mkQFromLines ((linesOf (("Q\nA. a\nB. b\nC. c\nD. d\nextra\nmore" : String).data)).take 5)] ∧
    parseBlocksE 0 [("Q\nA. a\nB. b\nC. c\nD. d" : String).data] =
      parseBlocksE 0 [("Q\nA. a\nB. b\nC. c\nD. d\nextra\nmore" : String).data] :=
  c10_extra_lines_dropped _ _ (by decide) (by decide)

/-! ## Claim theorems: the dual-store persistence adapter -/

/--
**C4.**  `saveQuizResult` never raises (the model is a total function into
an optional id): when the remote path (`getUser` + result insert) succeeds
it returns the remote-assigned id and leaves the local state alone;
otherwise it returns a freshly minted local id after appending the entry to
the local history list (the write itself silently no-ops if storage fails);
and it returns `null` exactly when the remote path failed *and* the local
fallback throws (`JSON.parse` of a corrupt stored history list).
-/
theorem c4_saveResult_total (env : Env) (st : LocalState) (r : ResultInput) :
    (∀ rid, saveResultRemote env = .ok rid → saveQuizResult env st r = (some rid, st)) ∧
    (saveResultRemote env = .error () → st.quizHistory ≠ some (.error ()) →
      saveQuizResult env st r =
        (some env.freshId,
         writeHistory env st (readableHistory st ++ [mkLocalEntry env r]))) ∧
    ((saveQuizResult env st r).1 = none ↔
      (saveResultRemote env = .error () ∧ st.quizHistory = some (.error ()))) := by
  refine ⟨?_, ?_, ?_⟩
  · intro rid h
    simp only [saveQuizResult, h]
  · intro hrem hcor
    match hh : st.quizHistory with
    | none => simp only [saveQuizResult, hrem, hh, readableHistory]
    | some (.ok l) => simp only [saveQuizResult, hrem, hh, readableHistory]
    | some (.error e) => exact absurd (by rw [hh]) hcor
  · constructor
    · intro h
      match hrem : saveResultRemote env with
      | .ok rid => simp [saveQuizResult, hrem] at h
      | .error e =>
        refine ⟨rfl, ?_⟩
        match hh : st.quizHistory with
        | none => simp [saveQuizResult, hrem, hh] at h
        | some (.ok l) => simp [saveQuizResult, hrem, hh] at h
        | some (.error e') => rfl
    · rintro ⟨hrem, hcor⟩
      simp [saveQuizResult, hrem, hcor]

/-- A remote environment in which every Supabase call fails, the minted
uuid is `uuid-local-1`, and local storage writes succeed. -/
def envRemoteDown : Env :=
  { authRes := .ok none, insertQuizRes := .error (), insertQuestionsRes := .error (),
    insertResultRes := .error (), listQuizzesRes := .error (), histRes := .error (),
    rpcGetQuiz := fun _ => .error (), freshId := "uuid-local-1",
    nowIso := "2026-01-01T00:00:00.000Z", dateVal := fun _ => 0, setItemOk := true }

def stEmpty : LocalState := { localQuizzes := none, quizHistory := none }

def stGoodHist : LocalState := { localQuizzes := none, quizHistory := some (.ok []) }

def resIn1 : ResultInput :=
  { quizId := "qa", score := 1, totalQuestions := 2, timeTaken := 3,
    completedAt := "2026-01-02T00:00:00.000Z", userName := none, answers := none }

/-- Witness for C4: with the remote store down and a readable local history,
the result is saved locally under the minted id. -/
theorem c4_witness :
    saveQuizResult envRemoteDown stGoodHist resIn1 =
      (some envRemoteDown.freshId,
       writeHistory envRemoteDown stGoodHist
         (readableHistory stGoodHist ++ [mkLocalEntry envRemoteDown resIn1])) :=
  (c4_saveResult_total envRemoteDown stGoodHist resIn1).2.1 rfl (by simp [stGoodHist])

/--
**C5.**  When the remote quiz-row creation fails, `createQuiz` returns the
freshly minted id, the full quiz (questions included) is appended to the
local store, and a subsequent `getQuizById` on that id (with the remote
store still not knowing it) returns a quiz with exactly the title,
description, option strings and correctAnswer indices passed to
`createQuiz`.
-/
theorem c5_createQuiz_roundTrip (env : Env) (st : LocalState) (qin : QuizInput)
    (hrem : createQuizRemote env = .error ())
    (hset : env.setItemOk = true)
    (hmiss : env.rpcGetQuiz env.freshId = .error () ∨ env.rpcGetQuiz env.freshId = .ok none)
    (hfresh : ∀ q ∈ readableQuizzes st, q.id ≠ env.freshId) :
    (createQuiz env st qin).1 = .ok env.freshId ∧
    getQuizById env (createQuiz env st qin).2 env.freshId = .ok (mkLocalQuiz env qin) ∧
    (mkLocalQuiz env qin).title = qin.title ∧
    (mkLocalQuiz env qin).description = qin.description ∧
    (mkLocalQuiz env qin).questions.map (fun q => q.options) =
      qin.questions.map (fun q => q.options) ∧
    (mkLocalQuiz env qin).questions.map (fun q => q.correctAnswer) =
      qin.questions.map (fun q => q.correctAnswer) := by
  have hcq : createQuiz env st qin =
      (.ok env.freshId, writeQuizzes env st (readableQuizzes st ++ [mkLocalQuiz env qin])) := by
    unfold createQuiz
    rw [hrem]
  have hread : readableQuizzes (createQuiz env st qin).2 =
      readableQuizzes st ++ [mkLocalQuiz env qin] := by
    rw [hcq]
    simp only [writeQuizzes, hset, if_true]
    rfl
  have hfind : (readableQuizzes (createQuiz env st qin).2).find?
      (fun q => q.id == env.freshId) = some (mkLocalQuiz env qin) := by
    rw [hread, List.find?_append]
    have h1 : (readableQuizzes st).find? (fun q => q.id == env.freshId) = none := by
      rw [List.find?_eq_none]
      intro q hq
      simpa using hfresh q hq
    rw [h1]
    simp [mkLocalQuiz]
  refine ⟨by rw [hcq], ?_, rfl, rfl, rfl, rfl⟩
  unfold getQuizById
  rcases hmiss with h | h <;> simp only [h, hfind]

def qin1 : QuizInput :=
  { title := "T", description := "Desc",
    questions := [{ id := "q1", text := "t?", options := ["a", "b", "c", "d"],
                    correctAnswer := 1 }],
    category := some (""), timeLimit := some 0 }

/-- Witness for C5: round trip through the local fallback on an empty local
store. -/
theorem c5_witness :
    (createQuiz envRemoteDown stEmpty qin1).1 = .ok envRemoteDown.freshId ∧
    getQuizById envRemoteDown (createQuiz envRemoteDown stEmpty qin1).2
      envRemoteDown.freshId = .ok (mkLocalQuiz envRemoteDown qin1) ∧
    (mkLocalQuiz envRemoteDown qin1).title = qin1.title ∧
    (mkLocalQuiz envRemoteDown qin1).description = qin1.description ∧
    (mkLocalQuiz envRemoteDown qin1).questions.map (fun q => q.options) =
      qin1.questions.map (fun q => q.options) ∧
    (mkLocalQuiz envRemoteDown qin1).questions.map (fun q => q.correctAnswer) =
      qin1.questions.map (fun q => q.correctAnswer) :=
  c5_createQuiz_roundTrip envRemoteDown stEmpty qin1 rfl rfl (Or.inl rfl)
    (by intro q hq; cases hq)

/--
**C6.**  `getQuizById` returns the formatted remote quiz (with its embedded
questions) when the remote RPC succeeds with data; on a remote error or
null data it returns the first matching quiz of the readable local list;
and it throws `Quiz not found` iff the remote call yields no quiz and
neither does the local scan.
-/
theorem c6_getQuizById_cases (env : Env) (st : LocalState) (id : String) :
    (∀ row, env.rpcGetQuiz id = .ok (some row) →
      getQuizById env st id = .ok (fmtRpcQuiz row)) ∧
    ((env.rpcGetQuiz id = .error () ∨ env.rpcGetQuiz id = .ok none) →
      ∀ q, (readableQuizzes st).find? (fun q' => q'.id == id) = some q →
        getQuizById env st id = .ok q) ∧
    (getQuizById env st id = .error ("Quiz not found") ↔
      ((env.rpcGetQuiz id = .error () ∨ env.rpcGetQuiz id = .ok none) ∧
        (readableQuizzes st).find? (fun q' => q'.id == id) = none)) := by
  refine ⟨?_, ?_, ?_⟩
  · intro row h
    simp only [getQuizById, h]
  · intro hmiss q hfind
    rcases hmiss with h | h <;> simp only [getQuizById, h, hfind]
  · constructor
    · intro heq
      match hr : env.rpcGetQuiz id with
      | .ok (some row) => simp [getQuizById, hr] at heq
      | .ok none =>
        refine ⟨Or.inr rfl, ?_⟩
        match hf : (readableQuizzes st).find? (fun q' => q'.id == id) with
        | some q => simp [getQuizById, hr, hf] at heq
        | none => exact hf
      | .error e =>
        refine ⟨Or.inl rfl, ?_⟩
        match hf : (readableQuizzes st).find? (fun q' => q'.id == id) with
        | some q => simp [getQuizById, hr, hf] at heq
        | none => exact hf
    · rintro ⟨hmiss, hfind⟩
      rcases hmiss with h | h <;> simp only [getQuizById, h, hfind]

def quizA : Quiz :=
  { id := "qa", title := "A", description := "da", questions := [],
    createdAt := "2026-01-01", updatedAt := "2026-01-01", author := none,
    category := some ("Science"), timeLimit := none }

def stWithQuiz : LocalState :=
  { localQuizzes := some (.ok [quizA]), quizHistory := none }

/-- Witness for C6: with the remote store down, the quiz is served from the
local list. -/
theorem c6_witness :
    getQuizById envRemoteDown stWithQuiz ("qa") = .ok quizA :=
  (c6_getQuizById_cases envRemoteDown stWithQuiz ("qa")).2.1 (Or.inl rfl) quizA (by decide)

/--
**C7.**  `getAllQuizzes` always returns the remote contribution concatenated
before the local contribution; a remote failure degrades the remote
contribution to `[]`, and a missing or corrupt local store degrades the
local contribution to `[]`; remote entries carry no nested questions; and
the lengths add up — nothing is de-duplicated or merged by id.
-/
theorem c7_listQuizzes_concat (env : Env) (st : LocalState) :
    getAllQuizzes env st = (remoteRows env).map fmtSummary ++ readableQuizzes st ∧
    (env.listQuizzesRes = .error () → (remoteRows env).map fmtSummary = []) ∧
    ((st.localQuizzes = none ∨ st.localQuizzes = some (.error ())) →
      readableQuizzes st = []) ∧
    (∀ q ∈ (remoteRows env).map fmtSummary, q.questions = []) ∧
    (getAllQuizzes env st).length =
      (remoteRows env).length + (readableQuizzes st).length := by
  refine ⟨rfl, ?_, ?_, ?_, ?_⟩
  · intro h
    simp [remoteRows, h]
  · intro h
    rcases h with h | h <;> simp [readableQuizzes, h]
  · intro q hq
    rcases List.mem_map.1 hq with ⟨row, _, rfl⟩
    rfl
  · simp [getAllQuizzes]

/-- A duplicated-id scenario for C7: the same quiz id is present remotely
and locally. -/
def rowA : RemoteQuizRow :=
  { id := "qa", title := "A-remote", description := "da", questions := none,
    created_at := "2026-01-01", updated_at := "2026-01-01",
    category := none, time_limit := none, author_id := none }

def envWithRowA : Env :=
  { envRemoteDown with listQuizzesRes := .ok [rowA] }

/-- Witness for C7: a quiz id present in both stores appears twice — remote
first, no merging. -/
theorem c7_witness :
    getAllQuizzes envWithRowA stWithQuiz =
      (remoteRows envWithRowA).map fmtSummary ++ readableQuizzes stWithQuiz ∧
    (getAllQuizzes envWithRowA stWithQuiz).length =
      (remoteRows envWithRowA).length + (readableQuizzes stWithQuiz).length :=
  ⟨(c7_listQuizzes_concat envWithRowA stWithQuiz).1,
   (c7_listQuizzes_concat envWithRowA stWithQuiz).2.2.2.2⟩

/-- The C8 scenario: remote quiz creation fails, and the local side fails
too — the stored quiz list is corrupt and the storage write fails. -/
def stCorrupt : LocalState :=
  { localQuizzes := some (.error ()), quizHistory := some (.error ()) }

def envAllDown : Env := { envRemoteDown with setItemOk := false }

/--
**C8, counterexample.**  The claim says `createQuiz` raises when both the
remote creation and the local fallback fail.  In this environment the
remote insert fails, the stored local list is corrupt (its read error is
swallowed on line 469 of `supabase.ts`) and the local write fails (its
error is swallowed by `safeLocalStorage.setItem`) — yet `createQuiz`
returns the minted id `uuid-local-1` instead of propagating an error.
-/
theorem c8_counterexample :
    (createQuiz envAllDown stCorrupt qin1).1 = .ok ("uuid-local-1") ∧
    ∀ e, (createQuiz envAllDown stCorrupt qin1).1 ≠ .error e := by
  refine ⟨rfl, ?_⟩
  intro e h
  cases h

/--
**C8, amended.**  When the remote quiz-row creation fails, `createQuiz`
never raises, whatever the state of the local store: read errors are
swallowed (a corrupt list is replaced by a fresh one) and write errors are
silently ignored, and the freshly minted local id is returned regardless.
-/
theorem c8_amended (env : Env) (st : LocalState) (q : QuizInput)
    (hrem : createQuizRemote env = .error ()) :
    (createQuiz env st q).1 = .ok env.freshId ∧
    ∀ e, (createQuiz env st q).1 ≠ .error e := by
  have hc : (createQuiz env st q).1 = .ok env.freshId := by
    unfold createQuiz
    rw [hrem]
  exact ⟨hc, fun e h => by rw [hc] at h; cases h⟩

/-- Witness for the amended C8. -/
theorem c8_amended_witness :
    (createQuiz envAllDown stEmpty qin1).1 = .ok envAllDown.freshId ∧
    ∀ e, (createQuiz envAllDown stEmpty qin1).1 ≠ .error e :=
  c8_amended envAllDown stEmpty qin1 rfl

/--
**C9.**  When the remote history read returns a non-empty sequence it is
returned directly (mapped to the output shape).  Otherwise — on a remote
failure or an empty remote result — the local history is returned: a
missing or corrupt stored list gives `[]`; a readable list is enhanced
per-entry via `getQuizById` and stably sorted by completion time
descending (and the output is indeed sorted for that comparator).  An
entry whose quiz lookup fails keeps the placeholder title `Unknown Quiz`
and a null category.
-/
theorem c9_history_fallback (env : Env) (st : LocalState) :
    (∀ l, env.histRes = .ok l → l ≠ [] → getQuizHistory env st = l.map fmtRemoteHist) ∧
    ((env.histRes = .error () ∨ env.histRes = .ok []) →
      getQuizHistory env st = localHistoryPath env st ∧
      (∀ l, st.quizHistory = some (.ok l) →
        localHistoryPath env st =
          (l.map (enhanceEntry env st)).mergeSort (histLe env) ∧
        (localHistoryPath env st).Pairwise (fun a b => histLe env a b = true)) ∧
      ((st.quizHistory = none ∨ st.quizHistory = some (.error ())) →
        localHistoryPath env st = [])) ∧
    (∀ item e, getQuizById env st item.quizId = .error e →
      (enhanceEntry env st item).quizTitle = "Unknown Quiz" ∧
      (enhanceEntry env st item).category = none) := by
  have htrans : ∀ a b c : HistOut, histLe env a b → histLe env b c → histLe env a c := by
    intro a b c hab hbc
    simp only [histLe, decide_eq_true_eq] at *
    omega
  have htotal : ∀ a b : HistOut, histLe env a b || histLe env b a := by
    intro a b
    simp only [histLe, Bool.or_eq_true, decide_eq_true_eq]
    omega
  refine ⟨?_, ?_, ?_⟩
  · intro l h hne
    simp [getQuizHistory, h, hne]
  · intro hrem
    refine ⟨?_, ?_, ?_⟩
    · rcases hrem with h | h <;> simp [getQuizHistory, h]
    · intro l hl
      refine ⟨by simp [localHistoryPath, hl], ?_⟩
      rw [show localHistoryPath env st =
        (l.map (enhanceEntry env st)).mergeSort (histLe env) by simp [localHistoryPath, hl]]
      exact List.sorted_mergeSort htrans htotal _
    · intro h
      rcases h with h | h <;> simp [localHistoryPath, h]
  · intro item e h
    simp [enhanceEntry, h]

def histE1 : LocalHistEntry :=
  { id := "h1", quizId := "qa", userName := "u", score := 1, totalQuestions := 2,
    timeTaken := 3, completedAt := "2026-01-02T00:00:00.000Z", answers := [] }

def histE2 : LocalHistEntry :=
  { id := "h2", quizId := "missing", userName := "u", score := 2, totalQuestions := 2,
    timeTaken := 4, completedAt := "2026-01-03T00:00:00.000Z", answers := [] }

def stWithHist : LocalState :=
  { localQuizzes := some (.ok [quizA]), quizHistory := some (.ok [histE1, histE2]) }

/-- Witness for C9: remote outage, two local entries, sorted output. -/
theorem c9_witness :
    getQuizHistory envRemoteDown stWithHist = localHistoryPath envRemoteDown stWithHist ∧
    localHistoryPath envRemoteDown stWithHist =
      ([histE1, histE2].map (enhanceEntry envRemoteDown stWithHist)).mergeSort
        (histLe envRemoteDown) ∧
    (enhanceEntry envRemoteDown stWithHist histE2).quizTitle = "Unknown Quiz" ∧
    (enhanceEntry envRemoteDown stWithHist histE2).category = none :=
  ⟨((c9_history_fallback envRemoteDown stWithHist).2.1 (Or.inl rfl)).1,
   (((c9_history_fallback envRemoteDown stWithHist).2.1 (Or.inl rfl)).2.1
      [histE1, histE2] rfl).1,
   ((c9_history_fallback envRemoteDown stWithHist).2.2 histE2 ("Quiz not found")
      (by decide)).1,
   ((c9_history_fallback envRemoteDown stWithHist).2.2 histE2 ("Quiz not found")
      (by decide)).2⟩

end QuizMaster
